import Mathlib

/-!
Shallow embedding of the caith dice-roll core (rollresult.rs and
helpers/cde.rs) and verification of its specification.

Machine integers are modelled as `Nat` (`u64` values) and `Int` (`i64`
totals), with wrap-around made explicit (`% 2^64`) exactly where the
release-mode Rust code can wrap.  Operations whose Rust counterpart can
panic (out-of-range slicing, division by zero or `i64::MIN / -1`, table
indexing out of bounds) return `Option`, with `Option.none` standing for
the unrecovered fault.
-/

namespace Caith

/-- History entries of a roll (`RollHistory` in rollresult.rs): raw dice
pools, fudge pools, constant values, and separators between combined
results. -/
inductive RollHistory where
  | roll (values : List Nat)
  | fudge (values : List Nat)
  | value (v : Nat)
  | separator (sym : String)
  deriving DecidableEq

/-- Result of a roll (`RollResult` in rollresult.rs): cached signed total,
history of steps, optional reason, and the dirty flag. -/
structure RollResult where
  total : Int
  history : List RollHistory
  reason : Option String
  dirty : Bool
  deriving DecidableEq

/-- Modelled from the spec: `TotalModifier` lives in the parser module,
which is not among the core sources; the spec fixes it as the closed set
`None`, `KeepHi(n)`, `KeepLo(n)`, `DropHi(n)`, `DropLo(n)`,
`TargetFailure(success_threshold, failure_threshold)`, `Fudge`. -/
inductive TotalModifier where
  | none
  | keepHi (n : Nat)
  | keepLo (n : Nat)
  | dropHi (n : Nat)
  | dropLo (n : Nat)
  | targetFailure (t : Nat) (f : Nat)
  | fudge
  deriving DecidableEq

/-- Reinterpret a `u64` bit pattern as an `i64` (Rust's `as i64` cast). -/
def i64OfU64 (n : Nat) : Int :=
  if n < 2 ^ 63 then (n : Int) else (n : Int) - 2 ^ 64

/-- Reinterpret an `i64` as a `u64` bit pattern (Rust's `as u64` cast). -/
def u64OfI64 (x : Int) : Nat :=
  (x % 2 ^ 64).toNat

/-- Wrapping `i64` arithmetic: reduce to the two's-complement range. -/
def wrap64 (x : Int) : Int :=
  (x + 2 ^ 63) % 2 ^ 64 - 2 ^ 63

/-- `RollResult::new`: the empty, dirty result. -/
def RollResult.new : RollResult :=
  { total := 0, history := [], reason := Option.none, dirty := true }

/-- `RollResult::with_total`: a constant-value result, created non-dirty;
the history records the total cast to `u64`. -/
def with_total (total : Int) : RollResult :=
  { total := total, history := [RollHistory.value (u64OfI64 total)],
    reason := Option.none, dirty := false }

/-- `RollResult::get_total`. -/
def get_total (r : RollResult) : Int := r.total

/-- `RollResult::get_history`. -/
def get_history (r : RollResult) : List RollHistory := r.history

/-- `RollResult::add_history`: sort the new values descending, append the
entry, mark dirty. -/
def add_history (r : RollResult) (vals : List Nat) (is_fudge : Bool) : RollResult :=
  { r with
    dirty := true
    history := r.history ++
      [if is_fudge then RollHistory.fudge (List.insertionSort (fun a b => b ≤ a) vals)
       else RollHistory.roll (List.insertionSort (fun a b => b ≤ a) vals)] }

/-- Values contributed by one history entry to the flattened pool. -/
def histValues : RollHistory → List Nat
  | .roll v => v
  | .fudge v => v
  | .value v => [v]
  | .separator _ => []

/-- The fold in `compute_total` that flattens the history into one pool of
values, skipping separators. -/
def flattenHistory (h : List RollHistory) : List Nat :=
  h.foldl (fun acc e =>
    match e with
    | RollHistory.roll v => acc ++ v
    | RollHistory.fudge v => acc ++ v
    | RollHistory.value v => acc ++ [v]
    | RollHistory.separator _ => acc) []

/-- `flat.sort_unstable()`: the pool sorted ascending. -/
def sortedPool (h : List RollHistory) : List Nat :=
  List.insertionSort (fun a b => a ≤ b) (flattenHistory h)

/-- The slicing in `compute_total`; `Option.none` models the
slice-out-of-range panic of `&flat[flat.len() - n..]` and friends. -/
def sliceFor (flat : List Nat) : TotalModifier → Option (List Nat)
  | .keepHi n => if n ≤ flat.length then some (flat.drop (flat.length - n)) else Option.none
  | .keepLo n => if n ≤ flat.length then some (flat.take n) else Option.none
  | .dropHi n => if n ≤ flat.length then some (flat.take (flat.length - n)) else Option.none
  | .dropLo n => if n ≤ flat.length then some (flat.drop n) else Option.none
  | _ => some flat

/-- Per-value score of the `TargetFailure(t, f)` reduction: the success
test `v >= t` is checked before the failure test `v <= f`. -/
def tfScore (t f v : Nat) : Int :=
  if t ≤ v then 1 else if v ≤ f then -1 else 0

/-- Per-value score of the `Fudge` reduction. -/
def fudgeScore (v : Nat) : Int :=
  if v ≤ 2 then -1 else if v ≤ 4 then 0 else 1

/-- `slice.iter().sum::<u64>()`: wrapping `u64` summation. -/
def u64Sum (l : List Nat) : Nat :=
  l.foldl (fun a b => (a + b) % 2 ^ 64) 0

/-- The reduction of the selected slice to a signed total. -/
def reduceSlice (slice : List Nat) : TotalModifier → Int
  | .targetFailure t f => slice.foldl (fun acc v => acc + tfScore t f v) 0
  | .fudge => slice.foldl (fun acc v => acc + fudgeScore v) 0
  | _ => i64OfU64 (u64Sum slice)

/-- `RollResult::compute_total`: cached when not dirty; otherwise flatten,
sort, slice and reduce, returning the total and the updated result.
`Option.none` models the out-of-range slicing panic. -/
def compute_total (r : RollResult) (m : TotalModifier) : Option (Int × RollResult) :=
  if r.dirty then
    match sliceFor (sortedPool r.history) m with
    | Option.none => Option.none
    | some s =>
      some (reduceSlice s m, { r with total := reduceSlice s m, dirty := false })
  else
    some (r.total, r)

/-- History splicing shared by the four operators: a separator carrying the
symbol is appended only when the right history is non-empty. -/
def combineHistory (sym : String) (a b : List RollHistory) : List RollHistory :=
  (if b.isEmpty then a else a ++ [RollHistory.separator sym]) ++ b

/-- `impl Add for RollResult`. -/
def rollAdd (a b : RollResult) : RollResult :=
  { total := wrap64 (a.total + b.total), history := combineHistory "+" a.history b.history,
    reason := a.reason, dirty := false }

/-- `impl Sub for RollResult`. -/
def rollSub (a b : RollResult) : RollResult :=
  { total := wrap64 (a.total - b.total), history := combineHistory "-" a.history b.history,
    reason := a.reason, dirty := false }

/-- `impl Mul for RollResult`. -/
def rollMul (a b : RollResult) : RollResult :=
  { total := wrap64 (a.total * b.total), history := combineHistory "*" a.history b.history,
    reason := a.reason, dirty := false }

/-- `impl Div for RollResult`: truncating `i64` division; `Option.none`
models the division-by-zero and `i64::MIN / -1` panics. -/
def rollDiv (a b : RollResult) : Option RollResult :=
  if b.total = 0 ∨ (a.total = -(2 ^ 63) ∧ b.total = -1) then Option.none
  else some { total := Int.tdiv a.total b.total,
              history := combineHistory "/" a.history b.history,
              reason := a.reason, dirty := false }

/-- Re-derive a total from a history under a modifier: the pure reading of
the dirty branch of `compute_total`. -/
def deriveTotal (h : List RollHistory) (m : TotalModifier) : Option Int :=
  (sliceFor (sortedPool h) m).map (fun s => reduceSlice s m)

/-- Slice selection as the spec words it: `KeepHi(n)` takes the last n of
the ascending pool, `KeepLo(n)` the first n, `DropHi(n)` all but the last
n, `DropLo(n)` all but the first n, anything else the whole pool. -/
def specSlice (pool : List Nat) : TotalModifier → List Nat
  | .keepHi n => pool.drop (pool.length - n)
  | .keepLo n => pool.take n
  | .dropHi n => pool.take (pool.length - n)
  | .dropLo n => pool.drop n
  | _ => pool

/-- The modifiers whose reduction is the unsigned sum cast to signed. -/
def isSumModifier : TotalModifier → Bool
  | .targetFailure _ _ => false
  | .fudge => false
  | _ => true

/-- The caller-side bounds contract: `n` at most the pool size for the four
keep/drop modifiers, nothing required otherwise. -/
def modifierInBounds (m : TotalModifier) (len : Nat) : Bool :=
  match m with
  | .keepHi n => decide (n ≤ len)
  | .keepLo n => decide (n ≤ len)
  | .dropHi n => decide (n ≤ len)
  | .dropLo n => decide (n ≤ len)
  | _ => true

/-- Results reachable through the public construction surface: creation,
`add_history`, `compute_total`, and the four arithmetic combinations. -/
inductive Reachable : RollResult → Prop where
  | new : Reachable RollResult.new
  | withTotal (t : Int) : Reachable (with_total t)
  | addHistory (r : RollResult) (vals : List Nat) (b : Bool) :
      Reachable r → Reachable (add_history r vals b)
  | computed (r : RollResult) (m : TotalModifier) (t : Int) (r' : RollResult) :
      Reachable r → compute_total r m = some (t, r') → Reachable r'
  | add (a b : RollResult) : Reachable a → Reachable b → Reachable (rollAdd a b)
  | sub (a b : RollResult) : Reachable a → Reachable b → Reachable (rollSub a b)
  | mul (a b : RollResult) : Reachable a → Reachable b → Reachable (rollMul a b)
  | div (a b c : RollResult) : Reachable a → Reachable b →
      rollDiv a b = some c → Reachable c

/-- Yin/Yang polarity (`Side` in cde.rs). -/
inductive Side where
  | yin
  | yang
  deriving DecidableEq

/-- Categorical outcome of one die face (`Outcome` in cde.rs). -/
inductive Outcome where
  | success
  | lucky
  | ill
  | loksyu (s : Side)
  | tinJi
  deriving DecidableEq

/-- The `FIRE` table of cde.rs, faces 1 to 10. -/
def FIRE : List Outcome :=
  [.tinJi, .success, .loksyu .yang, .ill, .lucky,
   .tinJi, .success, .loksyu .yin, .ill, .lucky]

/-- The `EARTH` table of cde.rs. -/
def EARTH : List Outcome :=
  [.loksyu .yang, .ill, .lucky, .tinJi, .success,
   .loksyu .yin, .ill, .lucky, .tinJi, .success]

/-- The `METAL` table of cde.rs. -/
def METAL : List Outcome :=
  [.lucky, .tinJi, .success, .loksyu .yin, .ill,
   .lucky, .tinJi, .success, .loksyu .yang, .ill]

/-- The `WATER` table of cde.rs. -/
def WATER : List Outcome :=
  [.success, .loksyu .yin, .ill, .lucky, .tinJi,
   .success, .loksyu .yang, .ill, .lucky, .tinJi]

/-- The `WOOD` table of cde.rs. -/
def WOOD : List Outcome :=
  [.ill, .lucky, .tinJi, .success, .loksyu .yang,
   .ill, .lucky, .tinJi, .success, .loksyu .yin]

/-- Display labels attached for fire, in relative cyclic order. -/
def fireLabels : List String :=
  ["㊋ fire", "㊏ earth", "㊍ wood", "㊎ metal", "㊌ water"]

/-- Display labels attached for earth. -/
def earthLabels : List String :=
  ["㊏ earth", "㊎ metal", "㊋ fire", "㊌ water", "㊍ wood"]

/-- Display labels attached for metal. -/
def metalLabels : List String :=
  ["㊎ metal", "㊌ water", "㊏ earth", "㊍ wood", "㊋ fire"]

/-- Display labels attached for water. -/
def waterLabels : List String :=
  ["㊌ water", "㊍ wood", "㊎ metal", "㊋ fire", "㊏ earth"]

/-- Display labels attached for wood. -/
def woodLabels : List String :=
  ["㊍ wood", "㊋ fire", "㊌ water", "㊏ earth", "㊎ metal"]

/-- ASCII lowercasing plus the one accented capital relevant to the
recognized names (Rust's `to_lowercase`, restricted to the used alphabet). -/
def lowerChar (c : Char) : Char :=
  if 'A' ≤ c ∧ c ≤ 'Z' then Char.ofNat (c.toNat + 32)
  else if c = 'É' then 'é' else c

/-- Lowercase a whole string. -/
def lowerStr (s : String) : String :=
  String.mk (s.data.map lowerChar)

/-- The ten recognized element names (five English, five French). -/
def elementNames : List String :=
  ["feu", "fire", "earth", "terre", "metal", "métal", "eau", "water", "bois", "wood"]

/-- The error message of `TryFrom<&str> for Element`, kept verbatim
(including its typo). -/
def elementErrMsg : String :=
  "Element must be one of `fire`, `earth`, `metal`, `fire` or `wood"

/-- Dispatch on an already-lowercased element name: the match of
`TryFrom<&str> for Element` combined with the label selection of
`compute_cde`. -/
def elementTableFor (s : String) : Option (List Outcome × List String) :=
  if s = "feu" ∨ s = "fire" then some (FIRE, fireLabels)
  else if s = "earth" ∨ s = "terre" then some (EARTH, earthLabels)
  else if s = "metal" ∨ s = "métal" then some (METAL, metalLabels)
  else if s = "eau" ∨ s = "water" then some (WATER, waterLabels)
  else if s = "bois" ∨ s = "wood" then some (WOOD, woodLabels)
  else Option.none

/-- Case-insensitive element recognition (`element.try_into()`). -/
def elementOfString (s : String) : Option (List Outcome × List String) :=
  elementTableFor (lowerStr s)

/-- Tally counters of an interpretation (`CdeResult` in cde.rs); `loksyu`
is the (Yin, Yang) pair. -/
structure CdeResult where
  success : Nat
  lucky : Nat
  ill : Nat
  loksyu : Nat × Nat
  tin_ji : Nat
  history : Option RollHistory
  elements : List String
  deriving DecidableEq

/-- `CdeResult::default()`. -/
def emptyCde : CdeResult :=
  { success := 0, lucky := 0, ill := 0, loksyu := (0, 0), tin_ji := 0,
    history := Option.none, elements := ["", "", "", "", ""] }

/-- Increment the counter matched by one outcome. -/
def applyOutcome (acc : CdeResult) : Outcome → CdeResult
  | .success => { acc with success := acc.success + 1 }
  | .lucky => { acc with lucky := acc.lucky + 1 }
  | .ill => { acc with ill := acc.ill + 1 }
  | .loksyu .yin => { acc with loksyu := (acc.loksyu.1 + 1, acc.loksyu.2) }
  | .loksyu .yang => { acc with loksyu := (acc.loksyu.1, acc.loksyu.2 + 1) }
  | .tinJi => { acc with tin_ji := acc.tin_ji + 1 }

/-- `mapping[(v.res - 1) as usize]`: `Option.none` models the index
panic for a face of 0 (wrapping subtraction) or above the table length. -/
def classify (table : List Outcome) (v : Nat) : Option Outcome :=
  if v = 0 then Option.none else table.get? (v - 1)

/-- The counting fold of `compute_cde` over the faces of the roll. -/
def tallyFaces (table : List Outcome) : List Nat → CdeResult → Option CdeResult
  | [], acc => some acc
  | v :: vs, acc =>
    match classify table v with
    | Option.none => Option.none
    | some o => tallyFaces table vs (applyOutcome acc o)

/-- The `flat_map(..).next()` extraction: the first `Roll` entry's values. -/
def firstRollFaces (h : List RollHistory) : Option (List Nat) :=
  (h.filterMap (fun e =>
    match e with
    | RollHistory.roll v => some v
    | _ => Option.none)).head?

/-- Modelled from the spec: the crate-level roll result distinguishes a
single roll result from repeated/composite ones, and `as_single` yields
the inner single result (nothing for the others); only the single case
carries the history `compute_cde` inspects. -/
inductive CaithRollResult where
  | single (r : RollResult)
  | repeated (rs : List RollResult) (total : Int)

/-- Modelled from the spec: `as_single`. -/
def as_single : CaithRollResult → Option RollResult
  | .single r => some r
  | .repeated _ _ => Option.none

/-- `compute_cde` of cde.rs: reject composite results, non-singleton
histories, non-`Roll` entries and unrecognized element names with typed
errors; otherwise classify every face through the chosen table and tally.
The outer `Option.none` models the table-index panic on a face outside
1..10. -/
def compute_cde (res : CaithRollResult) (element : String) :
    Option (Except String CdeResult) :=
  match as_single res with
  | Option.none => some (Except.error "Not a single roll result")
  | some r =>
    if r.history.length ≠ 1 then some (Except.error "Should have only one roll")
    else
      match firstRollFaces r.history with
      | Option.none => some (Except.error "RollHistory must be a Roll variant")
      | some faces =>
        match elementOfString element with
        | Option.none => some (Except.error elementErrMsg)
        | some (table, labels) =>
          match tallyFaces table faces emptyCde with
          | Option.none => Option.none
          | some c =>
            some (Except.ok { c with history := r.history.get? 0, elements := labels })

theorem flattenHistory_foldl (hs : List RollHistory) (acc : List Nat) :
    hs.foldl (fun acc e =>
      match e with
      | RollHistory.roll v => acc ++ v
      | RollHistory.fudge v => acc ++ v
      | RollHistory.value v => acc ++ [v]
      | RollHistory.separator _ => acc) acc
      = acc ++ (hs.map histValues).flatten := by
  induction hs generalizing acc with
  | nil => simp
  | cons e t ih => cases e <;> simp [ih, histValues]

theorem flattenHistory_eq (h : List RollHistory) :
    flattenHistory h = (h.map histValues).flatten := by
  unfold flattenHistory
  simpa using flattenHistory_foldl h []

theorem u64Sum_foldl (l : List Nat) (a : Nat) :
    l.foldl (fun x y => (x + y) % 2 ^ 64) (a % 2 ^ 64) = (a + l.sum) % 2 ^ 64 := by
  induction l generalizing a with
  | nil => simp
  | cons b t ih =>
    simp only [List.foldl_cons, List.sum_cons]
    rw [Nat.mod_add_mod, ih (a + b), Nat.add_assoc]

theorem u64Sum_eq_mod (l : List Nat) : u64Sum l = l.sum % 2 ^ 64 := by
  have := u64Sum_foldl l 0
  simpa [u64Sum] using this

theorem u64Sum_eq_of_lt (l : List Nat) (h : l.sum < 2 ^ 64) : u64Sum l = l.sum := by
  rw [u64Sum_eq_mod, Nat.mod_eq_of_lt h]

theorem i64OfU64_of_lt (k : Nat) (h : k < 2 ^ 63) : i64OfU64 k = (k : Int) := by
  unfold i64OfU64
  rw [if_pos h]

theorem wrap64_eq_of (x : Int) (h1 : -(2 ^ 63) ≤ x) (h2 : x < 2 ^ 63) :
    wrap64 x = x := by
  unfold wrap64
  rw [Int.emod_eq_of_lt (by omega) (by omega)]
  omega

theorem i64OfU64_u64OfI64 (t : Int) (h1 : -(2 ^ 63) ≤ t) (h2 : t < 2 ^ 63) :
    i64OfU64 (u64OfI64 t) = t := by
  unfold i64OfU64 u64OfI64
  have hm0 : 0 ≤ t % 2 ^ 64 := Int.emod_nonneg t (by norm_num)
  have hm1 : t % 2 ^ 64 < 2 ^ 64 := Int.emod_lt_of_pos t (by norm_num)
  split_ifs with h <;> omega

theorem foldl_score_eq (g : Nat → Int) (l : List Nat) (a : Int) :
    l.foldl (fun acc v => acc + g v) a = a + (l.map g).sum := by
  induction l generalizing a with
  | nil => simp
  | cons b t ih => simp [ih, add_assoc]

theorem sliceFor_eq_some (flat : List Nat) (m : TotalModifier)
    (hb : modifierInBounds m flat.length = true) :
    sliceFor flat m = some (specSlice flat m) := by
  cases m <;> simp [modifierInBounds] at hb <;> simp [sliceFor, specSlice, hb]

theorem reduceSlice_sum (s : List Nat) (m : TotalModifier)
    (hm : isSumModifier m = true) :
    reduceSlice s m = i64OfU64 (u64Sum s) := by
  cases m <;> simp [isSumModifier] at hm <;> rfl

theorem tfScore_bounds (t f v : Nat) : -1 ≤ tfScore t f v ∧ tfScore t f v ≤ 1 := by
  unfold tfScore
  split_ifs <;> norm_num

theorem sortedPool_perm (h : List RollHistory) :
    (sortedPool h).Perm (flattenHistory h) :=
  List.perm_insertionSort _ _

theorem sortedPool_sorted (h : List RollHistory) :
    List.Sorted (fun a b => a ≤ b) (sortedPool h) :=
  List.sorted_insertionSort _ _

theorem elementTableFor_length (s : String) (table : List Outcome)
    (labels : List String) (h : elementTableFor s = some (table, labels)) :
    table.length = 10 := by
  unfold elementTableFor at h
  split_ifs at h <;> simp at h <;> (obtain ⟨h1, h2⟩ := h) <;> rw [← h1] <;> rfl

theorem elementTableFor_none_iff (s : String) :
    elementTableFor s = Option.none ↔ s ∉ elementNames := by
  unfold elementTableFor elementNames
  split_ifs with h1 h2 h3 h4 h5 <;> simp <;>
    first
      | (rcases h1 with rfl | rfl <;> simp)
      | (rcases h2 with rfl | rfl <;> simp)
      | (rcases h3 with rfl | rfl <;> simp)
      | (rcases h4 with rfl | rfl <;> simp)
      | (rcases h5 with rfl | rfl <;> simp)
      | (push_neg at h1 h2 h3 h4 h5; tauto)

theorem tallyFaces_isSome (table : List Outcome) (faces : List Nat)
    (acc : CdeResult) (hlen : table.length = 10)
    (hf : ∀ v ∈ faces, 1 ≤ v ∧ v ≤ 10) :
    ∃ c, tallyFaces table faces acc = some c := by
  induction faces generalizing acc with
  | nil => exact ⟨acc, rfl⟩
  | cons v vs ih =>
    obtain ⟨h1, h2⟩ := hf v (List.mem_cons_self _ _)
    have hv : v - 1 < table.length := by omega
    have hc : classify table v = some (table.get ⟨v - 1, hv⟩) := by
      unfold classify
      rw [if_neg (by omega)]
      exact List.get?_eq_get hv
    unfold tallyFaces
    rw [hc]
    exact ih _ (fun w hw => hf w (List.mem_cons_of_mem _ hw))

/-- Claim C1: on a dirty result, `compute_total` flattens every Roll/Fudge
entry's values and every Value entry into one pool (skipping separators),
sorts it ascending, selects the contiguous slice dictated by the modifier
(KeepHi n: the last n; KeepLo n: the first n; DropHi n: all but the last
n; DropLo n: all but the first n; otherwise the whole pool), and for None
and the four keep/drop modifiers stores the slice's unsigned sum cast to a
signed integer, provided n does not exceed the pool size. -/
theorem compute_total_sum_modifier_slice (r : RollResult) (m : TotalModifier)
    (hd : r.dirty = true)
    (hb : modifierInBounds m (flattenHistory r.history).length = true) :
    List.Sorted (fun a b => a ≤ b) (sortedPool r.history)
    ∧ (sortedPool r.history).Perm (flattenHistory r.history)
    ∧ flattenHistory r.history = (r.history.map histValues).flatten
    ∧ sliceFor (sortedPool r.history) m = some (specSlice (sortedPool r.history) m)
    ∧ (isSumModifier m = true →
        compute_total r m =
          some (i64OfU64 (u64Sum (specSlice (sortedPool r.history) m)),
            { r with total := i64OfU64 (u64Sum (specSlice (sortedPool r.history) m)),
                     dirty := false })) := by
  have hperm := sortedPool_perm r.history
  have hb' : modifierInBounds m (sortedPool r.history).length = true := by
    rw [hperm.length_eq]
    exact hb
  have hslice := sliceFor_eq_some (sortedPool r.history) m hb'
  refine ⟨sortedPool_sorted r.history, hperm, flattenHistory_eq _, hslice, ?_⟩
  intro hs
  simp [compute_total, hd, hslice, reduceSlice_sum _ _ hs]

/-- Witness for C1 at a concrete dirty roll and `KeepHi 2`. -/
theorem compute_total_sum_modifier_slice_witness :
    ((add_history RollResult.new [2, 7, 4] false).dirty = true
      ∧ modifierInBounds (TotalModifier.keepHi 2)
          (flattenHistory (add_history RollResult.new [2, 7, 4] false).history).length = true
      ∧ isSumModifier (TotalModifier.keepHi 2) = true)
    ∧ compute_total (add_history RollResult.new [2, 7, 4] false) (TotalModifier.keepHi 2)
        = some (11, { total := 11, history := [RollHistory.roll [7, 4, 2]],
                      reason := Option.none, dirty := false }) :=
  ⟨by decide,
   ((compute_total_sum_modifier_slice (add_history RollResult.new [2, 7, 4] false)
      (TotalModifier.keepHi 2) (by decide) (by decide)).2.2.2.2 (by decide)).trans (by decide)⟩

/-- Claim C3: on a dirty result, `compute_total` under `TargetFailure(t, f)`
returns the sum over the whole pool of +1 per value at least t, else -1 per
value at most f, else 0; the success test is checked first, so a value
satisfying both thresholds scores +1. -/
theorem compute_total_target_failure (r : RollResult) (t f : Nat)
    (hd : r.dirty = true) :
    ∃ S : Int,
      compute_total r (TotalModifier.targetFailure t f)
        = some (S, { r with total := S, dirty := false })
      ∧ S = ((flattenHistory r.history).map (tfScore t f)).sum
      ∧ (∀ v : Nat, t ≤ v → tfScore t f v = 1) := by
  refine ⟨reduceSlice (sortedPool r.history) (TotalModifier.targetFailure t f), ?_, ?_, ?_⟩
  · simp [compute_total, hd, sliceFor]
  · show (sortedPool r.history).foldl (fun acc v => acc + tfScore t f v) 0 = _
    rw [foldl_score_eq, zero_add]
    exact ((sortedPool_perm r.history).map (tfScore t f)).sum_eq
  · intro v hv
    unfold tfScore
    rw [if_pos hv]

/-- Witness for C3 at the spec's example: `TargetFailure(8, 2)` over the
pool 1, 8, 9, 2, 5. -/
theorem compute_total_target_failure_witness :
    (add_history RollResult.new [1, 8, 9, 2, 5] false).dirty = true
    ∧ ∃ S : Int,
        compute_total (add_history RollResult.new [1, 8, 9, 2, 5] false)
            (TotalModifier.targetFailure 8 2)
          = some (S, { (add_history RollResult.new [1, 8, 9, 2, 5] false) with
                       total := S, dirty := false })
        ∧ S = ((flattenHistory
              (add_history RollResult.new [1, 8, 9, 2, 5] false).history).map
                (tfScore 8 2)).sum
        ∧ (∀ v : Nat, 8 ≤ v → tfScore 8 2 v = 1) :=
  ⟨by decide,
   compute_total_target_failure (add_history RollResult.new [1, 8, 9, 2, 5] false) 8 2 (by decide)⟩

/-- Counterexample to C7 as stated over every pool: for the pool holding
the single value 2^63 and n = 0 (within bounds), the `as i64` cast makes
the DropHi total -2^63, so total plus the sum of the 0 largest values is
not the pool's sum 2^63. -/
theorem drop_hi_overflow_cex :
    compute_total (add_history RollResult.new [2 ^ 63] false) (TotalModifier.dropHi 0)
        = some (-(2 ^ 63),
            { total := -(2 ^ 63), history := [RollHistory.roll [2 ^ 63]],
              reason := Option.none, dirty := false })
    ∧ 0 ≤ (flattenHistory (add_history RollResult.new [2 ^ 63] false).history).length
    ∧ ((-(2 ^ 63) : Int)
        + (((sortedPool (add_history RollResult.new [2 ^ 63] false).history).drop
            ((sortedPool (add_history RollResult.new [2 ^ 63] false).history).length - 0)).sum : Int)
        ≠ ((flattenHistory (add_history RollResult.new [2 ^ 63] false).history).sum : Int)) := by
  refine ⟨by decide, by decide, by decide⟩

/-- Claim C7 (amended): for a dirty result whose pool fits in the signed range and
any n at most the pool size, the total computed under `DropHi(n)` plus the
sum of the n largest values of the pool equals the sum of the entire
pool. -/
theorem drop_hi_complement_sum (r : RollResult) (n : Nat)
    (hd : r.dirty = true)
    (hn : n ≤ (flattenHistory r.history).length)
    (hsum : (flattenHistory r.history).sum < 2 ^ 63) :
    ∃ r' : RollResult,
      compute_total r (TotalModifier.dropHi n) = some (r'.total, r')
      ∧ r'.total
          + (((sortedPool r.history).drop ((sortedPool r.history).length - n)).sum : Int)
        = ((flattenHistory r.history).sum : Int) := by
  have hperm := sortedPool_perm r.history
  have hlen : (sortedPool r.history).length = (flattenHistory r.history).length :=
    hperm.length_eq
  have hpsum : (sortedPool r.history).sum = (flattenHistory r.history).sum :=
    hperm.sum_eq
  have hn' : n ≤ (sortedPool r.history).length := by omega
  have hsplit :
      ((sortedPool r.history).take ((sortedPool r.history).length - n)).sum
        + ((sortedPool r.history).drop ((sortedPool r.history).length - n)).sum
      = (sortedPool r.history).sum :=
    List.sum_take_add_sum_drop _ _
  have htk : ((sortedPool r.history).take ((sortedPool r.history).length - n)).sum < 2 ^ 63 := by
    omega
  refine ⟨{ r with
            total := i64OfU64 (u64Sum
              ((sortedPool r.history).take ((sortedPool r.history).length - n)))
            dirty := false }, ?_, ?_⟩
  · simp [compute_total, hd, sliceFor, hn', reduceSlice]
  · show i64OfU64 (u64Sum _) + _ = _
    rw [u64Sum_eq_of_lt _ (by omega), i64OfU64_of_lt _ htk]
    exact_mod_cast hsplit.trans hpsum

/-- Witness for C7 at a concrete pool 1, 3, 5 with n = 2. -/
theorem drop_hi_complement_sum_witness :
    ((add_history RollResult.new [5, 1, 3] false).dirty = true
      ∧ 2 ≤ (flattenHistory (add_history RollResult.new [5, 1, 3] false).history).length
      ∧ (flattenHistory (add_history RollResult.new [5, 1, 3] false).history).sum < 2 ^ 63)
    ∧ ∃ r' : RollResult,
        compute_total (add_history RollResult.new [5, 1, 3] false) (TotalModifier.dropHi 2)
          = some (r'.total, r')
        ∧ r'.total
            + (((sortedPool (add_history RollResult.new [5, 1, 3] false).history).drop
                ((sortedPool (add_history RollResult.new [5, 1, 3] false).history).length - 2)).sum : Int)
          = ((flattenHistory (add_history RollResult.new [5, 1, 3] false).history).sum : Int) :=
  ⟨⟨by decide, by decide, by decide⟩,
   drop_hi_complement_sum (add_history RollResult.new [5, 1, 3] false) 2
     (by decide) (by decide) (by decide)⟩

/-- Claim C8: on a non-dirty result, `compute_total` with any modifier
returns the cached total and leaves the result entirely unchanged. -/
theorem compute_total_cached_noop (r : RollResult) (m : TotalModifier)
    (hd : r.dirty = false) :
    compute_total r m = some (r.total, r) := by
  simp [compute_total, hd]

/-- Witness for C8 at a constant result and an arbitrary modifier. -/
theorem compute_total_cached_noop_witness :
    (with_total 5).dirty = false
    ∧ compute_total (with_total 5) (TotalModifier.keepHi 99) = some ((with_total 5).total, with_total 5) :=
  ⟨by decide, compute_total_cached_noop (with_total 5) (TotalModifier.keepHi 99) (by decide)⟩

/-- Claim C9: `compute_total` never re-checks bounds itself; whenever the
caller-guaranteed precondition holds (n at most the flattened pool's
size), every slicing succeeds and the panic branch is unreachable, while
for some n larger than the pool size the slicing is an unrecovered
fault. -/
theorem compute_total_bounds_contract :
    (∀ (r : RollResult) (m : TotalModifier),
        modifierInBounds m (flattenHistory r.history).length = true →
        (compute_total r m).isSome = true)
    ∧ compute_total RollResult.new (TotalModifier.keepLo 1) = Option.none := by
  constructor
  · intro r m hb
    by_cases hd : r.dirty
    · have hb' : modifierInBounds m (sortedPool r.history).length = true := by
        rw [(sortedPool_perm r.history).length_eq]
        exact hb
      simp [compute_total, hd, sliceFor_eq_some _ _ hb']
    · simp [compute_total, hd]
  · rfl

/-- Witness for C9's universally quantified part at a concrete in-bounds
input. -/
theorem compute_total_bounds_contract_witness :
    modifierInBounds (TotalModifier.keepHi 1)
        (flattenHistory (add_history RollResult.new [3] false).history).length = true
    ∧ (compute_total (add_history RollResult.new [3] false) (TotalModifier.keepHi 1)).isSome = true :=
  ⟨by decide,
   compute_total_bounds_contract.1 (add_history RollResult.new [3] false)
     (TotalModifier.keepHi 1) (by decide)⟩

/-- Claim C2: each binary operator concatenates the left history, a
separator carrying the operator's symbol (only when the right history is
non-empty), and the right history; combines the two i64 totals with the
matching arithmetic operator (truncating division for /); keeps the left
reason; and marks the result non-dirty.  In particular 3 + 4 gives total 7
and history Value(3), Separator(+), Value(4). -/
theorem roll_ops_combine :
    (∀ a b : RollResult,
        (rollAdd a b).history
            = a.history ++ (if b.history = [] then [] else [RollHistory.separator "+"]) ++ b.history
        ∧ (rollAdd a b).reason = a.reason ∧ (rollAdd a b).dirty = false
        ∧ (-(2 ^ 63) ≤ a.total + b.total → a.total + b.total < 2 ^ 63 →
            (rollAdd a b).total = a.total + b.total))
    ∧ (∀ a b : RollResult,
        (rollSub a b).history
            = a.history ++ (if b.history = [] then [] else [RollHistory.separator "-"]) ++ b.history
        ∧ (rollSub a b).reason = a.reason ∧ (rollSub a b).dirty = false
        ∧ (-(2 ^ 63) ≤ a.total - b.total → a.total - b.total < 2 ^ 63 →
            (rollSub a b).total = a.total - b.total))
    ∧ (∀ a b : RollResult,
        (rollMul a b).history
            = a.history ++ (if b.history = [] then [] else [RollHistory.separator "*"]) ++ b.history
        ∧ (rollMul a b).reason = a.reason ∧ (rollMul a b).dirty = false
        ∧ (-(2 ^ 63) ≤ a.total * b.total → a.total * b.total < 2 ^ 63 →
            (rollMul a b).total = a.total * b.total))
    ∧ (∀ a b : RollResult, b.total ≠ 0 → ¬(a.total = -(2 ^ 63) ∧ b.total = -1) →
        ∃ c : RollResult,
          rollDiv a b = some c
          ∧ c.history
              = a.history ++ (if b.history = [] then [] else [RollHistory.separator "/"]) ++ b.history
          ∧ c.reason = a.reason ∧ c.dirty = false ∧ c.total = Int.tdiv a.total b.total)
    ∧ (rollAdd (with_total 3) (with_total 4)).total = 7
    ∧ (rollAdd (with_total 3) (with_total 4)).history
        = [RollHistory.value 3, RollHistory.separator "+", RollHistory.value 4] := by
  have hh : ∀ (sym : String) (a b : List RollHistory),
      combineHistory sym a b
        = a ++ (if b = [] then [] else [RollHistory.separator sym]) ++ b := by
    intro sym a b
    cases b <;> simp [combineHistory]
  refine ⟨?_, ?_, ?_, ?_, by decide, by decide⟩
  · exact fun a b => ⟨hh _ _ _, rfl, rfl, fun h1 h2 => wrap64_eq_of _ h1 h2⟩
  · exact fun a b => ⟨hh _ _ _, rfl, rfl, fun h1 h2 => wrap64_eq_of _ h1 h2⟩
  · exact fun a b => ⟨hh _ _ _, rfl, rfl, fun h1 h2 => wrap64_eq_of _ h1 h2⟩
  · intro a b hz hov
    refine ⟨{ total := Int.tdiv a.total b.total,
              history := combineHistory "/" a.history b.history,
              reason := a.reason, dirty := false }, ?_, hh _ _ _, rfl, rfl, rfl⟩
    unfold rollDiv
    rw [if_neg (by tauto)]

/-- Witness for C2 at concrete operands, exercising the in-range addition
equation and the guarded division. -/
theorem roll_ops_combine_witness :
    ((-(2 ^ 63) ≤ (with_total 3).total + (with_total 4).total
        ∧ (with_total 3).total + (with_total 4).total < 2 ^ 63)
      ∧ (with_total 2).total ≠ 0
      ∧ ¬((with_total 7).total = -(2 ^ 63) ∧ (with_total 2).total = -1))
    ∧ (rollAdd (with_total 3) (with_total 4)).total
        = (with_total 3).total + (with_total 4).total
    ∧ ∃ c : RollResult,
        rollDiv (with_total 7) (with_total 2) = some c
        ∧ c.history
            = (with_total 7).history
              ++ (if (with_total 2).history = [] then [] else [RollHistory.separator "/"])
              ++ (with_total 2).history
        ∧ c.reason = (with_total 7).reason ∧ c.dirty = false
        ∧ c.total = Int.tdiv (with_total 7).total (with_total 2).total :=
  ⟨⟨⟨by decide, by decide⟩, by decide, by decide⟩,
   (roll_ops_combine.1 (with_total 3) (with_total 4)).2.2.2 (by decide) (by decide),
   roll_ops_combine.2.2.2.1 (with_total 7) (with_total 2) (by decide) (by decide)⟩

/-- Counterexample to C10 as stated: at t = -2^63 the recorded history
value IS the magnitude of t (both are 2^63), so "for every negative t the
recorded value is not its magnitude" fails at this input. -/
theorem with_total_min_magnitude_cex :
    (-(2 ^ 63) : Int) < 0
    ∧ (with_total (-(2 ^ 63))).history
        = [RollHistory.value (Int.natAbs (-(2 ^ 63)))] := by
  constructor
  · decide
  · decide

/-- Claim C10 (amended): `with_total t` is non-dirty with total t, its
single history entry stores t cast to unsigned 64-bit (t mod 2^64, the
two's-complement reinterpretation, equal to 2^64 + t for negative t),
`get_total` still returns t, and for every negative t other than -2^63
the recorded value differs from the magnitude of t (at -2^63 the two
coincide at 2^63). -/
theorem with_total_twos_complement (t : Int)
    (h1 : -(2 ^ 63) ≤ t) (h2 : t < 2 ^ 63) :
    (with_total t).dirty = false
    ∧ get_total (with_total t) = t
    ∧ (with_total t).history = [RollHistory.value (u64OfI64 t)]
    ∧ u64OfI64 t = (t % 2 ^ 64).toNat
    ∧ (t < 0 → (u64OfI64 t : Int) = 2 ^ 64 + t)
    ∧ (t < 0 → t ≠ -(2 ^ 63) → u64OfI64 t ≠ t.natAbs) := by
  have hm : t % 2 ^ 64 = if 0 ≤ t then t else t + 2 ^ 64 := by
    split_ifs <;> omega
  refine ⟨rfl, rfl, rfl, rfl, ?_, ?_⟩
  · intro hneg
    unfold u64OfI64
    rw [hm, if_neg (by omega)]
    omega
  · intro hneg hmin
    unfold u64OfI64
    rw [hm, if_neg (by omega)]
    omega

/-- Witness for C10's amended claim at t = -5: the recorded value is
2^64 - 5, not 5. -/
theorem with_total_twos_complement_witness :
    (-(2 ^ 63) ≤ (-5 : Int) ∧ (-5 : Int) < 2 ^ 63)
    ∧ ((with_total (-5)).dirty = false
      ∧ get_total (with_total (-5)) = -5
      ∧ (with_total (-5)).history = [RollHistory.value (u64OfI64 (-5))]
      ∧ u64OfI64 (-5) = ((-5 : Int) % 2 ^ 64).toNat
      ∧ ((-5 : Int) < 0 → (u64OfI64 (-5) : Int) = 2 ^ 64 + (-5))
      ∧ ((-5 : Int) < 0 → (-5 : Int) ≠ -(2 ^ 63) → u64OfI64 (-5) ≠ (-5 : Int).natAbs)) :=
  ⟨⟨by decide, by decide⟩, with_total_twos_complement (-5) (by decide) (by decide)⟩

/-- Counterexample to C6 as stated: the reachable, non-dirty result
`with_total 3 * with_total 4` has total 12, which is not derivable from
its history (pool 3, 4) under any modifier, so "dirty == false implies
total reflects the current history under the last-applied modifier"
fails. -/
theorem combined_total_not_derivable_cex :
    ¬ (∀ r : RollResult, Reachable r → r.dirty = false →
        ∃ m : TotalModifier, deriveTotal r.history m = some r.total) := by
  intro hclaim
  obtain ⟨m, hm⟩ := hclaim (rollMul (with_total 3) (with_total 4))
    (Reachable.mul _ _ (Reachable.withTotal 3) (Reachable.withTotal 4)) rfl
  have ht : (rollMul (with_total 3) (with_total 4)).total = 12 := by decide
  have hp : sortedPool (rollMul (with_total 3) (with_total 4)).history = [3, 4] := by decide
  rw [ht] at hm
  cases m with
  | none => exact absurd hm (by decide)
  | fudge => exact absurd hm (by decide)
  | keepHi n =>
    by_cases hn : n ≤ 2
    · interval_cases n <;> exact absurd hm (by decide)
    · simp only [deriveTotal, hp] at hm
      simp [sliceFor, hn] at hm
  | keepLo n =>
    by_cases hn : n ≤ 2
    · interval_cases n <;> exact absurd hm (by decide)
    · simp only [deriveTotal, hp] at hm
      simp [sliceFor, hn] at hm
  | dropHi n =>
    by_cases hn : n ≤ 2
    · interval_cases n <;> exact absurd hm (by decide)
    · simp only [deriveTotal, hp] at hm
      simp [sliceFor, hn] at hm
  | dropLo n =>
    by_cases hn : n ≤ 2
    · interval_cases n <;> exact absurd hm (by decide)
    · simp only [deriveTotal, hp] at hm
      simp [sliceFor, hn] at hm
  | targetFailure t f =>
    simp only [deriveTotal, hp, sliceFor, Option.map_some] at hm
    have hval := Option.some.inj hm
    simp only [reduceSlice, List.foldl_cons, List.foldl_nil] at hval
    obtain ⟨h3a, h3b⟩ := tfScore_bounds t f 3
    obtain ⟨h4a, h4b⟩ := tfScore_bounds t f 4
    omega

/-- Claim C6 (amended): dirty == false implies the total was finalized:
a result returned by `compute_total` is non-dirty with a total that is
re-derivable from its history under that modifier (when the input was
dirty), and `with_total` is non-dirty with a total derivable under the
None modifier; combining two results via an operator always produces a
non-dirty result, but its total is the arithmetic combination of the
operands' cached totals, not re-derived from the merged history. -/
theorem dirty_false_total_provenance :
    (∀ (r : RollResult) (m : TotalModifier) (t : Int) (r' : RollResult),
        compute_total r m = some (t, r') →
        r'.dirty = false ∧ r'.total = t
        ∧ (r.dirty = true → deriveTotal r'.history m = some t))
    ∧ (∀ t : Int, -(2 ^ 63) ≤ t → t < 2 ^ 63 →
        (with_total t).dirty = false
        ∧ deriveTotal (with_total t).history TotalModifier.none = some (with_total t).total)
    ∧ (∀ a b : RollResult,
        (rollAdd a b).dirty = false ∧ (rollAdd a b).total = wrap64 (a.total + b.total))
    ∧ (∀ a b : RollResult,
        (rollSub a b).dirty = false ∧ (rollSub a b).total = wrap64 (a.total - b.total))
    ∧ (∀ a b : RollResult,
        (rollMul a b).dirty = false ∧ (rollMul a b).total = wrap64 (a.total * b.total))
    ∧ (∀ a b c : RollResult, rollDiv a b = some c →
        c.dirty = false ∧ c.total = Int.tdiv a.total b.total) := by
  refine ⟨?_, ?_, fun a b => ⟨rfl, rfl⟩, fun a b => ⟨rfl, rfl⟩, fun a b => ⟨rfl, rfl⟩, ?_⟩
  · intro r m t r' h
    by_cases hd : r.dirty
    · simp only [compute_total, hd, if_true] at h
      rcases hs : sliceFor (sortedPool r.history) m with _ | s
      · rw [hs] at h
        exact absurd h (by simp)
      · rw [hs] at h
        obtain ⟨h1, h2⟩ := Prod.mk.injEq .. ▸ Option.some.inj h
        subst h2
        exact ⟨rfl, h1 ▸ rfl, fun _ => by simp [deriveTotal, hs, h1]⟩
    · simp only [compute_total, hd, if_false] at h
      simp only [Bool.not_eq_true] at hd
      obtain ⟨h1, h2⟩ := Prod.mk.injEq .. ▸ Option.some.inj h
      subst h2
      exact ⟨hd, h1 ▸ rfl, fun hcon => absurd hcon (by simp [hd])⟩
  · intro t h1 h2
    refine ⟨rfl, ?_⟩
    have hk : u64OfI64 t < 2 ^ 64 := by
      unfold u64OfI64
      have ha := Int.emod_nonneg t (show (2 ^ 64 : Int) ≠ 0 by norm_num)
      have hb := Int.emod_lt_of_pos t (show (0 : Int) < 2 ^ 64 by norm_num)
      omega
    have hsum : u64Sum [u64OfI64 t] = u64OfI64 t := by
      show (0 + u64OfI64 t) % 2 ^ 64 = u64OfI64 t
      rw [Nat.zero_add, Nat.mod_eq_of_lt hk]
    simp [deriveTotal, with_total, sortedPool, flattenHistory, List.insertionSort,
      List.orderedInsert, sliceFor, reduceSlice, hsum, i64OfU64_u64OfI64 t h1 h2]
  · intro a b c h
    unfold rollDiv at h
    split_ifs at h
    obtain rfl := Option.some.inj h
    exact ⟨rfl, rfl⟩

/-- Witness for C6's amended claim: a concrete `compute_total` run and a
concrete `with_total` both leave a non-dirty, re-derivable total. -/
theorem dirty_false_total_provenance_witness :
    (compute_total (add_history RollResult.new [2, 7, 4] false) (TotalModifier.keepHi 2)
        = some (11, { total := 11, history := [RollHistory.roll [7, 4, 2]],
                      reason := Option.none, dirty := false })
      ∧ (-(2 ^ 63) ≤ (9 : Int) ∧ (9 : Int) < 2 ^ 63))
    ∧ ({ total := 11, history := [RollHistory.roll [7, 4, 2]],
         reason := Option.none, dirty := (false : Bool) } : RollResult).dirty = false
    ∧ ({ total := 11, history := [RollHistory.roll [7, 4, 2]],
         reason := Option.none, dirty := (false : Bool) } : RollResult).total = 11
    ∧ ((add_history RollResult.new [2, 7, 4] false).dirty = true →
        deriveTotal [RollHistory.roll [7, 4, 2]] (TotalModifier.keepHi 2) = some 11)
    ∧ ((with_total 9).dirty = false
        ∧ deriveTotal (with_total 9).history TotalModifier.none = some (with_total 9).total) :=
  ⟨⟨by decide, by decide, by decide⟩,
   (dirty_false_total_provenance.1 (add_history RollResult.new [2, 7, 4] false)
      (TotalModifier.keepHi 2) 11
      { total := 11, history := [RollHistory.roll [7, 4, 2]],
        reason := Option.none, dirty := false } (by decide)).1,
   (dirty_false_total_provenance.1 (add_history RollResult.new [2, 7, 4] false)
      (TotalModifier.keepHi 2) 11
      { total := 11, history := [RollHistory.roll [7, 4, 2]],
        reason := Option.none, dirty := false } (by decide)).2.1,
   (dirty_false_total_provenance.1 (add_history RollResult.new [2, 7, 4] false)
      (TotalModifier.keepHi 2) 11
      { total := 11, history := [RollHistory.roll [7, 4, 2]],
        reason := Option.none, dirty := false } (by decide)).2.2,
   dirty_false_total_provenance.2.1 9 (by decide) (by decide)⟩

/-- Claim C4: `compute_cde` fails with a distinct recoverable (typed)
error on each of: a result that is not exactly one atomic roll group
(composite results and non-singleton histories), a single-entry history
whose entry is not the Roll variant, and an element name that does not
case-insensitively match one of the ten recognized English/French names;
and it succeeds otherwise (faces within the 10-entry table). -/
theorem compute_cde_preconditions :
    (∀ (rs : List RollResult) (tot : Int) (name : String),
        compute_cde (CaithRollResult.repeated rs tot) name
          = some (Except.error "Not a single roll result"))
    ∧ (∀ (r : RollResult) (name : String), r.history.length ≠ 1 →
        compute_cde (CaithRollResult.single r) name
          = some (Except.error "Should have only one roll"))
    ∧ (∀ (r : RollResult) (name : String) (e : RollHistory),
        r.history = [e] → (∀ vals : List Nat, e ≠ RollHistory.roll vals) →
        compute_cde (CaithRollResult.single r) name
          = some (Except.error "RollHistory must be a Roll variant"))
    ∧ (∀ name : String, elementOfString name = Option.none ↔ lowerStr name ∉ elementNames)
    ∧ (∀ (r : RollResult) (name : String) (faces : List Nat),
        r.history = [RollHistory.roll faces] → lowerStr name ∉ elementNames →
        compute_cde (CaithRollResult.single r) name = some (Except.error elementErrMsg))
    ∧ (∀ (r : RollResult) (name : String) (faces : List Nat),
        r.history = [RollHistory.roll faces] →
        (∀ v ∈ faces, 1 ≤ v ∧ v ≤ 10) →
        (elementOfString name).isSome = true →
        ∃ c : CdeResult, compute_cde (CaithRollResult.single r) name = some (Except.ok c)) := by
  refine ⟨fun rs tot name => rfl, ?_, ?_, fun name => elementTableFor_none_iff (lowerStr name),
    ?_, ?_⟩
  · intro r name h
    simp [compute_cde, as_single, h]
  · intro r name e h1 h2
    cases e with
    | roll vals => exact absurd rfl (h2 vals)
    | fudge vals => simp [compute_cde, as_single, h1, firstRollFaces]
    | value v => simp [compute_cde, as_single, h1, firstRollFaces]
    | separator s => simp [compute_cde, as_single, h1, firstRollFaces]
  · intro r name faces h1 h2
    have he : elementOfString name = Option.none := (elementTableFor_none_iff _).mpr h2
    simp [compute_cde, as_single, h1, firstRollFaces, he]
  · intro r name faces h1 hf hsome
    obtain ⟨p, hp⟩ := Option.isSome_iff_exists.mp hsome
    obtain ⟨table, labels⟩ := p
    have hlen : table.length = 10 := elementTableFor_length (lowerStr name) table labels hp
    obtain ⟨c, hc⟩ := tallyFaces_isSome table faces emptyCde hlen hf
    refine ⟨{ c with history := r.history.get? 0, elements := labels }, ?_⟩
    simp [compute_cde, as_single, h1, firstRollFaces, hp, hc]

/-- Witness for C4: a composite two-group history is rejected, a fudge
single roll is rejected, an unrecognized name is rejected, and a valid
single roll under a mixed-case recognized name succeeds. -/
theorem compute_cde_preconditions_witness :
    (({ total := 0,
        history := [RollHistory.roll [2, 5], RollHistory.separator "+", RollHistory.roll [7]],
        reason := Option.none, dirty := true } : RollResult).history.length ≠ 1
      ∧ ({ total := 0, history := [RollHistory.fudge [3]],
           reason := Option.none, dirty := true } : RollResult).history
          = [RollHistory.fudge [3]]
      ∧ (∀ vals : List Nat, RollHistory.fudge [3] ≠ RollHistory.roll vals)
      ∧ ({ total := 0, history := [RollHistory.roll [1, 10]],
           reason := Option.none, dirty := true } : RollResult).history
          = [RollHistory.roll [1, 10]]
      ∧ (∀ v ∈ [1, 10], 1 ≤ v ∧ v ≤ 10)
      ∧ (elementOfString "FirE").isSome = true)
    ∧ compute_cde (CaithRollResult.single
        { total := 0,
          history := [RollHistory.roll [2, 5], RollHistory.separator "+", RollHistory.roll [7]],
          reason := Option.none, dirty := true }) "fire"
        = some (Except.error "Should have only one roll")
    ∧ compute_cde (CaithRollResult.single
        { total := 0, history := [RollHistory.fudge [3]],
          reason := Option.none, dirty := true }) "fire"
        = some (Except.error "RollHistory must be a Roll variant")
    ∧ ∃ c : CdeResult,
        compute_cde (CaithRollResult.single
          { total := 0, history := [RollHistory.roll [1, 10]],
            reason := Option.none, dirty := true }) "FirE"
          = some (Except.ok c) :=
  ⟨⟨by decide, by decide, fun vals h => RollHistory.noConfusion h, by decide, by decide, by decide⟩,
   compute_cde_preconditions.2.1
     { total := 0,
       history := [RollHistory.roll [2, 5], RollHistory.separator "+", RollHistory.roll [7]],
       reason := Option.none, dirty := true } "fire" (by decide),
   compute_cde_preconditions.2.2.1
     { total := 0, history := [RollHistory.fudge [3]],
       reason := Option.none, dirty := true } "fire" (RollHistory.fudge [3]) rfl
     (by intro vals h; cases h),
   compute_cde_preconditions.2.2.2.2.2
     { total := 0, history := [RollHistory.roll [1, 10]],
       reason := Option.none, dirty := true } "FirE" [1, 10] rfl (by decide) (by decide)⟩

/-- The 8d10 example roll of the spec with faces 1, 2, 3, 4, 5, 7, 10, 5. -/
def cdeExampleRoll : RollResult :=
  { total := 0, history := [RollHistory.roll [1, 2, 3, 4, 5, 7, 10, 5]],
    reason := Option.none, dirty := true }

/-- Claim C5: interpreting the single roll with faces 1, 2, 3, 4, 5, 7,
10, 5 under "fire" yields success 2, lucky 3, ill 1, loksyu (0, 1),
tin ji 1; the same pool under "earth" yields success 3, lucky 1, ill 2,
loksyu (0, 1), tin ji 1, each face classified through entry v - 1 of the
chosen element's 10-entry table. -/
theorem compute_cde_fire_earth_example :
    compute_cde (CaithRollResult.single cdeExampleRoll) "fire"
      = some (Except.ok
          { success := 2, lucky := 3, ill := 1, loksyu := (0, 1), tin_ji := 1,
            history := some (RollHistory.roll [1, 2, 3, 4, 5, 7, 10, 5]),
            elements := fireLabels })
    ∧ compute_cde (CaithRollResult.single cdeExampleRoll) "earth"
      = some (Except.ok
          { success := 3, lucky := 1, ill := 2, loksyu := (0, 1), tin_ji := 1,
            history := some (RollHistory.roll [1, 2, 3, 4, 5, 7, 10, 5]),
            elements := earthLabels }) := by
  constructor
  · rfl
  · rfl

end Caith
